import Mathlib

/-!
# Verification of the go-task-runner package

Shallow embedding of `runner.go`: a task runner executing a list of
zero-argument functions either sequentially (`Program.Run`) or partitioned
across `n` concurrent runners (`Program.RunConc`), with optional lifecycle
hooks (`PreHook`, `PostHook`, `OnStart`, `OnFinish`) and an inter-task
interval.

Modelling choices:
* A task's opaque `interface{}` result is a type parameter `α`; a `Task` is
  a function `Unit → α` as in the source (`type Task func() interface{}`).
* Hooks are caller-supplied effects.  Their presence is a `Bool` (the source
  checks `!= nil`), and every invocation is recorded as an `Event` in an
  observable trace: the pre-task hook invocation carries the index argument,
  the post-task one the index and value, `time.Sleep(p.Interval)` is a
  `pause` event carrying the duration, and the start/finish hooks give
  `start` / `finish` events.
* `RunConc`'s goroutine scheduling is nondeterministic.  The channel
  reception order is a parameter `arrival` (constrained in theorems to be a
  permutation of the messages the workers send), and the interleaving of the
  workers' hook events is a parameter `inter` (constrained to be a schedule
  of the per-worker traces).
* Go's `span := length / runners` panics when `runners` is zero; `RunConc`
  therefore returns an `Option`, with `none` for the panic.
-/

namespace TaskRunner

/-- A task: a zero-argument unit of work producing one opaque result
(Go: `type Task func() interface{}`). -/
def Task (α : Type) : Type := Unit → α

/-- One observable hook invocation or pause during a run. -/
inductive Event (α : Type) where
  | start : Event α
  | pre (i : Nat) : Event α
  | post (i : Nat) (v : α) : Event α
  | pause (d : Int) : Event α
  | finish (vs : List α) : Event α
  deriving DecidableEq, Repr

/-- `Program` mirrors the Go struct: the task list, the inter-task interval
(`time.Duration`, an integer nanosecond count), presence flags for the four
optional hooks, and the internal `isConc` flag. -/
structure Program (α : Type) where
  Tasks : List (Task α)
  Interval : Int := 0
  PreHook : Bool := false
  PostHook : Bool := false
  OnStart : Bool := false
  OnFinish : Bool := false
  isConc : Bool := false

/-- `trackedResult` mirrors the Go struct: a runner id paired with the
ordered results of that runner's sub-slice. -/
structure trackedResult (α : Type) where
  id : Nat
  res : List α
  deriving DecidableEq, Repr

/-- The body of the shared core loop `(*Program).run`: iterate over the
remaining tasks, `i` being the current index and `l` the total length of the
sub-slice.  For each task: pre-hook with `i + offset`, execute, post-hook
with `i + offset` and the value, and a pause when an interval is configured
and this is not the last task (`i == l-1`). -/
def runAux (p : Program α) (l : Nat) (offset : Nat) :
    List (Task α) → Nat → List α × List (Event α)
  | [], _ => ([], [])
  | f :: rest, i =>
    let isLast : Bool := i == l - 1
    let preEvs := if p.PreHook then [Event.pre (i + offset)] else []
    let v := f ()
    let postEvs := if p.PostHook then [Event.post (i + offset) v] else []
    let pauseEvs :=
      if p.Interval > 0 ∧ isLast = false then [Event.pause p.Interval] else []
    let tail := runAux p l offset rest (i + 1)
    (v :: tail.1, preEvs ++ postEvs ++ pauseEvs ++ tail.2)

/-- `(*Program).run(tasks, offset)`: the shared core loop over a sub-slice,
returning the ordered results and the trace of hook events. -/
def Program.run (p : Program α) (tasks : List (Task α)) (offset : Nat) :
    List α × List (Event α) :=
  runAux p tasks.length offset tasks 0

/-- `(*Program).Run()`: the sequential entry point.  `OnStart` fires first,
then the core loop over the whole task list with offset 0, and the deferred
`OnFinish` receives the results about to be returned. -/
def Program.Run (p : Program α) : List α × List (Event α) :=
  let startEvs := if p.OnStart then [Event.start] else []
  let r := p.run p.Tasks 0
  let finishEvs := if p.OnFinish then [Event.finish r.1] else []
  (r.1, startEvs ++ r.2 ++ finishEvs)

/-- `safeRunnerQuantity(runners, length)`: worker-count normalization as in
the source. -/
def safeRunnerQuantity (runners length : Int) : Int :=
  if runners > length then length
  else if runners < 1 then 1
  else runners

/-- Shard start index in `RunConc`'s dispatch loop: `start := i * span`. -/
def shardStart (span i : Nat) : Nat := i * span

/-- Shard end index in `RunConc`'s dispatch loop: `end := start + span`,
forced to `length` for the last runner (`i == runners-1`). -/
def shardEnd (length w span i : Nat) : Nat :=
  if i = w - 1 then length else i * span + span

/-- The sub-slice `p.Tasks[start:end]` handed to runner `i`.  Generic in the
element type so the same shard formula can also be read as a partition of
the index sequence `[0, …, length)`. -/
def shardSlice (tasks : List τ) (length w span i : Nat) : List τ :=
  (tasks.drop (shardStart span i)).take (shardEnd length w span i - shardStart span i)

/-- The message runner `i` sends on the channel:
`trackedResult{i, p.run(part, i)}`.  Note the source passes the runner index
`i` — not the shard start `i * span` — as the offset to the core loop. -/
def workerMessage (p : Program α) (w span i : Nat) : trackedResult α :=
  ⟨i, (p.run (shardSlice p.Tasks p.Tasks.length w span i) i).1⟩

/-- The list of messages sent by runners `0, …, w-1`, indexed by runner. -/
def workerMessages (p : Program α) (w span : Nat) : List (trackedResult α) :=
  (List.range w).map (workerMessage p w span)

/-- The trace of hook events runner `i` emits while running its shard. -/
def workerTrace (p : Program α) (w span i : Nat) : List (Event α) :=
  (p.run (shardSlice p.Tasks p.Tasks.length w span i) i).2

/-- The per-runner event traces, indexed by runner. -/
def workerTraces (p : Program α) (w span : Nat) : List (List (Event α)) :=
  (List.range w).map (workerTrace p w span)

/-- The comparison used by `sort.SliceStable(..., rawResults[i].id < rawResults[j].id)`:
order tagged results by runner id. -/
def tleId (a b : trackedResult α) : Prop := a.id ≤ b.id

/-- Strict version of `tleId`, used to state uniqueness of the sorted order. -/
def tltId (a b : trackedResult α) : Prop := a.id < b.id

instance : DecidableRel (@tleId α) := fun a b => Nat.decLe a.id b.id

instance : IsTotal (trackedResult α) tleId := ⟨fun a b => Nat.le_total a.id b.id⟩

instance : IsTrans (trackedResult α) tleId := ⟨fun _ _ _ => Nat.le_trans⟩

instance : IsAntisymm (trackedResult α) tltId :=
  ⟨fun _ _ h1 h2 => absurd (Nat.lt_trans h1 h2) (Nat.lt_irrefl _)⟩

/-- The stable sort of the gathered results by runner id
(`sort.SliceStable` on `rawResults[i].id < rawResults[j].id`). -/
def sortByRunnerId (l : List (trackedResult α)) : List (trackedResult α) :=
  List.insertionSort tleId l

/-- The effective worker count of `RunConc n`, as a natural number. -/
def effWorkers (p : Program α) (n : Int) : Nat :=
  (safeRunnerQuantity n p.Tasks.length).toNat

/-- The shard span of `RunConc n`: `span := length / runners`. -/
def effSpan (p : Program α) (n : Int) : Nat :=
  p.Tasks.length / effWorkers p n

/-- `(*Program).RunConc(n)`: the concurrent entry point.  `arrival` is the
order in which the tagged partial results are received from the channel and
`inter` is the interleaving of the workers' hook events; both are
nondeterministic and constrained by hypotheses in the theorems below.
When `safeRunnerQuantity` returns 0 (empty task list, `n ≥ 1`) the source
divides by zero in `span := length / runners` and panics: `none`. -/
def Program.RunConc (p : Program α) (n : Int)
    (arrival : List (trackedResult α)) (inter : List (Event α)) :
    Option (List α × List (Event α)) :=
  let startEvs := if p.OnStart then [Event.start] else []
  let runners := safeRunnerQuantity n p.Tasks.length
  if runners = 0 then none
  else
    let results := ((sortByRunnerId arrival).map trackedResult.res).flatten
    let finishEvs := if p.OnFinish then [Event.finish results] else []
    some (results, startEvs ++ inter ++ finishEvs)

/-- The channel reception order is some permutation of the messages the `w`
runners send. -/
def ValidArrival (p : Program α) (n : Int)
    (arrival : List (trackedResult α)) : Prop :=
  arrival.Perm (workerMessages p (effWorkers p n) (effSpan p n))

/-- `t` is a concurrent schedule of the per-worker traces `ls`: it uses
exactly the events of `ls` and each worker's own trace appears in `t` in
order.  Every interleaving produced by the goroutine scheduler satisfies
this. -/
def IsSchedule (ls : List (List ε)) (t : List ε) : Prop :=
  t.Perm ls.flatten ∧ ∀ l ∈ ls, l.Sublist t

/-- `(*Program).concMode(activate)`: sets the `isConc` flag.  Unused by the
run paths (the calls in the source are commented out). -/
def Program.concMode (p : Program α) (activate : Bool) : Program α :=
  if activate then { p with isConc := true } else { p with isConc := false }

/-- `Run` as a state transformer on the receiver: the source assigns to no
field of `p`, so the post-state is the unchanged receiver. -/
def Program.RunWithState (p : Program α) :
    Program α × (List α × List (Event α)) :=
  (p, p.Run)

/-- `RunConc` as a state transformer on the receiver: the source assigns to
no field of `p`, so the post-state is the unchanged receiver. -/
def Program.RunConcWithState (p : Program α) (n : Int)
    (arrival : List (trackedResult α)) (inter : List (Event α)) :
    Program α × Option (List α × List (Event α)) :=
  (p, p.RunConc n arrival inter)

/-- Event classifiers for counting hook invocations. -/
def Event.isPre : Event α → Bool
  | .pre _ => true
  | _ => false

def Event.isPost : Event α → Bool
  | .post _ _ => true
  | _ => false

def Event.isStart : Event α → Bool
  | .start => true
  | _ => false

def Event.isFinish : Event α → Bool
  | .finish _ => true
  | _ => false

def Event.isPause : Event α → Bool
  | .pause _ => true
  | _ => false

/-- Modelled from the spec: the expected trace of the core loop over the
task values, when pre/post hooks and a positive interval are configured —
pre and post around each task, a pause of the configured duration between
consecutive tasks, and no pause after the last one. -/
def specPacedTrace (d : Int) : Nat → List α → List (Event α)
  | _, [] => []
  | off, [v] => [Event.pre off, Event.post off v]
  | off, v :: v' :: rest =>
    [Event.pre off, Event.post off v, Event.pause d] ++
      specPacedTrace d (off + 1) (v' :: rest)

/-! ### Concrete example programs (used as witnesses and counterexamples) -/

/-- The five tasks of the repository's tests: each returns `"task" + index`. -/
def exampleFive : Program String :=
  { Tasks := [fun _ => "task0", fun _ => "task1", fun _ => "task2",
              fun _ => "task3", fun _ => "task4"] }

/-- Four numbered tasks with a pre-task hook, exposing the offset passed to
each concurrent worker. -/
def fourWithPre : Program Nat :=
  { Tasks := [fun _ => 0, fun _ => 1, fun _ => 2, fun _ => 3],
    PreHook := true }

/-- A program with an empty task list and no hooks. -/
def emptyProgram : Program Nat := { Tasks := [] }

/-- A program with an empty task list and all four hooks configured. -/
def emptyAllHooks : Program Nat :=
  { Tasks := [], PreHook := true, PostHook := true,
    OnStart := true, OnFinish := true }

/-- Two numbered tasks with all four hooks configured. -/
def twoAllHooks : Program Nat :=
  { Tasks := [fun _ => 10, fun _ => 11], PreHook := true, PostHook := true,
    OnStart := true, OnFinish := true }

/-- Three numbered tasks with pre/post hooks and a positive interval. -/
def threePaced : Program Nat :=
  { Tasks := [fun _ => 7, fun _ => 8, fun _ => 9], Interval := 5,
    PreHook := true, PostHook := true }

/-! ### Core-loop lemmas -/

theorem runAux_fst (p : Program α) (l offset : Nat) (ts : List (Task α)) (i : Nat) :
    (runAux p l offset ts i).1 = ts.map (fun f => f ()) := by
  induction ts generalizing i with
  | nil => rfl
  | cons f rest ih => simp [runAux, ih]

theorem run_fst (p : Program α) (ts : List (Task α)) (offset : Nat) :
    (p.run ts offset).1 = ts.map (fun f => f ()) :=
  runAux_fst p ts.length offset ts 0

theorem Run_fst (p : Program α) : (p.Run).1 = p.Tasks.map (fun f => f ()) :=
  run_fst p p.Tasks 0

theorem countP_ite_single (c : Prop) [Decidable c] (e : ε) (q : ε → Bool) :
    ((if c then [e] else []).countP q) = if c then (if q e then 1 else 0) else 0 := by
  split <;> simp [List.countP_cons]

theorem runAux_countP_isPre (p : Program α) (l offset : Nat) (ts : List (Task α)) (i : Nat) :
    ((runAux p l offset ts i).2.countP Event.isPre) =
      if p.PreHook then ts.length else 0 := by
  induction ts generalizing i with
  | nil => simp [runAux]
  | cons f rest ih =>
    simp only [runAux, List.countP_append, countP_ite_single, ih]
    by_cases hp : p.PreHook <;>
      simp [hp, Event.isPre, Event.isPost, Event.isPause, List.length_cons,
        Nat.add_comm]

theorem runAux_countP_isPost (p : Program α) (l offset : Nat) (ts : List (Task α)) (i : Nat) :
    ((runAux p l offset ts i).2.countP Event.isPost) =
      if p.PostHook then ts.length else 0 := by
  induction ts generalizing i with
  | nil => simp [runAux]
  | cons f rest ih =>
    simp only [runAux, List.countP_append, countP_ite_single, ih]
    by_cases hq : p.PostHook <;>
      simp [hq, Event.isPre, Event.isPost, Event.isPause, List.length_cons,
        Nat.add_comm]

theorem runAux_countP_isStart (p : Program α) (l offset : Nat) (ts : List (Task α)) (i : Nat) :
    ((runAux p l offset ts i).2.countP Event.isStart) = 0 := by
  induction ts generalizing i with
  | nil => simp [runAux]
  | cons f rest ih =>
    simp only [runAux, List.countP_append, countP_ite_single, ih]
    simp [Event.isStart]

theorem runAux_countP_isFinish (p : Program α) (l offset : Nat) (ts : List (Task α)) (i : Nat) :
    ((runAux p l offset ts i).2.countP Event.isFinish) = 0 := by
  induction ts generalizing i with
  | nil => simp [runAux]
  | cons f rest ih =>
    simp only [runAux, List.countP_append, countP_ite_single, ih]
    simp [Event.isFinish]

theorem runAux_cons (p : Program α) (l offset : Nat) (f : Task α)
    (rest : List (Task α)) (i : Nat) :
    runAux p l offset (f :: rest) i =
      (f () :: (runAux p l offset rest (i + 1)).1,
        (if p.PreHook then [Event.pre (i + offset)] else []) ++
          (if p.PostHook then [Event.post (i + offset) (f ())] else []) ++
          (if p.Interval > 0 ∧ (i == l - 1) = false
            then [Event.pause p.Interval] else []) ++
          (runAux p l offset rest (i + 1)).2) := rfl

theorem runAux_countP_isPause (p : Program α) (offset : Nat) (ts : List (Task α))
    (i l : Nat) (hinv : i + ts.length = l) :
    ((runAux p l offset ts i).2.countP Event.isPause) =
      if p.Interval > 0 then ts.length - 1 else 0 := by
  induction ts generalizing i with
  | nil => simp [runAux]
  | cons f rest ih =>
    have ihx := ih (i := i + 1) (by simp only [List.length_cons] at hinv ⊢; omega)
    rw [runAux_cons]
    simp only [List.countP_append, countP_ite_single, ihx]
    cases rest with
    | nil =>
      have hlast : (i == l - 1) = true := by
        simp only [List.length_cons, List.length_nil] at hinv
        simp only [Nat.beq_eq_true_eq]; omega
      simp [hlast, Event.isPre, Event.isPost, Event.isPause]
    | cons g rest' =>
      have hlast : (i == l - 1) = false := by
        simp only [List.length_cons] at hinv
        simp only [beq_eq_false_iff_ne, ne_eq]; omega
      by_cases hd : p.Interval > 0 <;>
        simp [hd, hlast, Event.isPre, Event.isPost, Event.isPause,
          List.length_cons] <;>
        omega

theorem run_countP_isPause (p : Program α) (ts : List (Task α)) (offset : Nat) :
    ((p.run ts offset).2.countP Event.isPause) =
      if p.Interval > 0 then ts.length - 1 else 0 :=
  runAux_countP_isPause p offset ts 0 ts.length (by omega)

theorem run_countP_isPre (p : Program α) (ts : List (Task α)) (offset : Nat) :
    ((p.run ts offset).2.countP Event.isPre) =
      if p.PreHook then ts.length else 0 :=
  runAux_countP_isPre p ts.length offset ts 0

theorem run_countP_isPost (p : Program α) (ts : List (Task α)) (offset : Nat) :
    ((p.run ts offset).2.countP Event.isPost) =
      if p.PostHook then ts.length else 0 :=
  runAux_countP_isPost p ts.length offset ts 0

theorem run_countP_isStart (p : Program α) (ts : List (Task α)) (offset : Nat) :
    ((p.run ts offset).2.countP Event.isStart) = 0 :=
  runAux_countP_isStart p ts.length offset ts 0

theorem run_countP_isFinish (p : Program α) (ts : List (Task α)) (offset : Nat) :
    ((p.run ts offset).2.countP Event.isFinish) = 0 :=
  runAux_countP_isFinish p ts.length offset ts 0

/-! ### Pacing: the expected trace shape of the core loop -/

theorem runAux_trace_paced (p : Program α) (hpre : p.PreHook = true)
    (hpost : p.PostHook = true) (hint : p.Interval > 0) (offset : Nat)
    (ts : List (Task α)) (i l : Nat) (hinv : i + ts.length = l) :
    (runAux p l offset ts i).2 =
      specPacedTrace p.Interval (i + offset) (ts.map fun f => f ()) := by
  induction ts generalizing i with
  | nil => simp [runAux, specPacedTrace]
  | cons f rest ih =>
    rw [runAux_cons]
    cases rest with
    | nil =>
      have hlast : (i == l - 1) = true := by
        simp only [List.length_cons, List.length_nil] at hinv
        simp only [Nat.beq_eq_true_eq]; omega
      simp [hlast, hpre, hpost, hint, runAux, specPacedTrace]
    | cons g rest' =>
      have hlast : (i == l - 1) = false := by
        simp only [List.length_cons] at hinv
        simp only [beq_eq_false_iff_ne, ne_eq]; omega
      have ihx := ih (i := i + 1) (by simp only [List.length_cons] at hinv ⊢; omega)
      simp [hlast, hpre, hpost, hint, ihx, specPacedTrace, Nat.add_right_comm]

theorem run_trace_paced (p : Program α) (hpre : p.PreHook = true)
    (hpost : p.PostHook = true) (hint : p.Interval > 0)
    (ts : List (Task α)) (offset : Nat) :
    (p.run ts offset).2 = specPacedTrace p.Interval offset (ts.map fun f => f ()) := by
  have h := runAux_trace_paced p hpre hpost hint offset ts 0 ts.length (by omega)
  simpa using h

/-! ### Partition exactness of the shard scheme -/

theorem flatten_shardSlice_take (ts : List τ) (w span k : Nat) (hk : k < w) :
    (((List.range k).map (shardSlice ts ts.length w span)).flatten)
      = ts.take (k * span) := by
  induction k with
  | zero => simp
  | succ k ih =>
    have hne : k ≠ w - 1 := by omega
    rw [List.range_succ, List.map_append, List.flatten_append, ih (by omega),
      Nat.succ_mul, List.take_add]
    simp [shardSlice, shardStart, shardEnd, hne, Nat.add_sub_cancel_left]

theorem flatten_shardSlice (ts : List τ) (w : Nat) (hw : 1 ≤ w)
    (hwl : w ≤ ts.length) :
    (((List.range w).map (shardSlice ts ts.length w (ts.length / w))).flatten)
      = ts := by
  obtain ⟨m, rfl⟩ : ∃ m, w = m + 1 := ⟨w - 1, by omega⟩
  rw [List.range_succ, List.map_append, List.flatten_append,
    flatten_shardSlice_take ts (m + 1) _ m (by omega)]
  have hlast : shardSlice ts ts.length (m + 1) (ts.length / (m + 1)) m
      = ts.drop (m * (ts.length / (m + 1))) := by
    simp only [shardSlice, shardStart, shardEnd, Nat.add_sub_cancel, if_pos rfl]
    exact List.take_of_length_le (by simp)
  simp [hlast, List.take_append_drop]

/-! ### The tagged-result sort restores runner order -/

theorem workerMessages_sorted_lt (p : Program α) (w span : Nat) :
    (workerMessages p w span).Sorted tltId := by
  unfold workerMessages
  rw [List.Sorted, List.pairwise_map]
  exact (List.pairwise_lt_range w).imp (fun h => h)

theorem sortByRunnerId_eq_of_perm (msgs arrival : List (trackedResult α))
    (hsorted : msgs.Sorted tltId) (hperm : arrival.Perm msgs) :
    sortByRunnerId arrival = msgs := by
  have hperm2 : (sortByRunnerId arrival).Perm msgs :=
    (List.perm_insertionSort tleId arrival).trans hperm
  have hle : (sortByRunnerId arrival).Sorted tleId :=
    List.sorted_insertionSort tleId arrival
  have h1 : (msgs.map trackedResult.id).Nodup := by
    rw [List.Nodup, List.pairwise_map]
    exact hsorted.imp (fun h => Nat.ne_of_lt h)
  have h2 : List.Pairwise (fun a b : trackedResult α => a.id ≠ b.id)
      (sortByRunnerId arrival) := by
    rw [← List.pairwise_map (f := trackedResult.id)]
    exact ((hperm2.map trackedResult.id).symm).nodup h1
  have hlt : (sortByRunnerId arrival).Sorted tltId :=
    (hle.and h2).imp (fun h => Nat.lt_of_le_of_ne h.1 h.2)
  exact List.eq_of_perm_of_sorted hperm2 hlt hsorted

/-- Merging the gathered results — stable sort by runner id, then
concatenation — yields the results of all tasks in original order, for any
channel reception order. -/
theorem merge_results (p : Program α) (w : Nat) (hw : 1 ≤ w)
    (hwl : w ≤ p.Tasks.length) (arrival : List (trackedResult α))
    (hperm : arrival.Perm (workerMessages p w (p.Tasks.length / w))) :
    (((sortByRunnerId arrival).map trackedResult.res).flatten)
      = p.Tasks.map (fun f => f ()) := by
  rw [sortByRunnerId_eq_of_perm _ _ (workerMessages_sorted_lt p w _) hperm]
  unfold workerMessages
  rw [List.map_map]
  have hcomp : (trackedResult.res ∘ workerMessage p w (p.Tasks.length / w))
      = fun i => (shardSlice p.Tasks p.Tasks.length w (p.Tasks.length / w) i).map
          (fun f => f ()) := by
    funext i
    simp [workerMessage, run_fst]
  rw [hcomp]
  have hmm : ((List.range w).map fun i =>
        (shardSlice p.Tasks p.Tasks.length w (p.Tasks.length / w) i).map
          (fun f => f ()))
      = ((List.range w).map
          (shardSlice p.Tasks p.Tasks.length w (p.Tasks.length / w))).map
          (List.map (fun f => f ())) := by
    rw [List.map_map]; rfl
  rw [hmm, ← List.map_flatten, flatten_shardSlice p.Tasks w hw hwl]

/-! ### Counting hook events over all workers -/

theorem flatten_workerTraces_countP_zero (p : Program α) (w span : Nat)
    (q : Event α → Bool)
    (hq : ∀ (ts : List (Task α)) (offset : Nat),
      ((p.run ts offset).2.countP q) = 0) :
    (((workerTraces p w span).flatten).countP q) = 0 := by
  rw [List.countP_flatten]
  unfold workerTraces
  rw [List.map_map]
  have hz : (List.countP q ∘ workerTrace p w span) = fun _ => 0 := by
    funext i; simp [workerTrace, hq]
  rw [hz]
  simp

theorem flatten_workerTraces_countP_len (p : Program α) (w : Nat) (hw : 1 ≤ w)
    (hwl : w ≤ p.Tasks.length) (q : Event α → Bool)
    (hq : ∀ (ts : List (Task α)) (offset : Nat),
      ((p.run ts offset).2.countP q) = ts.length) :
    (((workerTraces p w (p.Tasks.length / w)).flatten).countP q)
      = p.Tasks.length := by
  rw [List.countP_flatten]
  unfold workerTraces
  rw [List.map_map]
  have h1 : (List.countP q ∘ workerTrace p w (p.Tasks.length / w))
      = fun i => (shardSlice p.Tasks p.Tasks.length w (p.Tasks.length / w) i).length := by
    funext i; simp [workerTrace, hq]
  rw [h1]
  have h2 : ((List.range w).map fun i =>
        (shardSlice p.Tasks p.Tasks.length w (p.Tasks.length / w) i).length)
      = (((List.range w).map
          (shardSlice p.Tasks p.Tasks.length w (p.Tasks.length / w))).map
          List.length) := by
    rw [List.map_map]; rfl
  rw [h2, ← List.length_flatten, flatten_shardSlice p.Tasks w hw hwl]

/-! ### Worker-count normalization bounds and `RunConc` unfolding -/

theorem safeRunnerQuantity_ne_zero (n : Int) (L : Nat) (hL : 1 ≤ L) :
    safeRunnerQuantity n (L : Int) ≠ 0 := by
  unfold safeRunnerQuantity
  split
  · omega
  · split <;> omega

theorem effWorkers_bounds (p : Program α) (n : Int) (hL : 1 ≤ p.Tasks.length) :
    1 ≤ effWorkers p n ∧ effWorkers p n ≤ p.Tasks.length := by
  unfold effWorkers safeRunnerQuantity
  split
  · omega
  · split <;> omega

theorem RunConc_eq_some (p : Program α) (n : Int)
    (arrival : List (trackedResult α)) (inter : List (Event α))
    (hne : safeRunnerQuantity n p.Tasks.length ≠ 0) :
    p.RunConc n arrival inter = some
      (((sortByRunnerId arrival).map trackedResult.res).flatten,
        (if p.OnStart then [Event.start] else []) ++ inter ++
          (if p.OnFinish then
            [Event.finish (((sortByRunnerId arrival).map trackedResult.res).flatten)]
          else [])) := by
  unfold Program.RunConc
  rw [if_neg hne]

/-- The central concurrent-run lemma: for a non-empty task list and any
reception order of the tagged partial results, `RunConc` returns the same
result sequence as `Run`, wrapped in the start/finish lifecycle around the
scheduled worker events. -/
theorem RunConc_merged (p : Program α) (n : Int)
    (arrival : List (trackedResult α)) (inter : List (Event α))
    (hL : 1 ≤ p.Tasks.length) (har : ValidArrival p n arrival) :
    p.RunConc n arrival inter = some
      ((p.Run).1,
        (if p.OnStart then [Event.start] else []) ++ inter ++
          (if p.OnFinish then [Event.finish (p.Run).1] else [])) := by
  obtain ⟨hw1, hw2⟩ := effWorkers_bounds p n hL
  unfold ValidArrival effSpan at har
  have hm : (((sortByRunnerId arrival).map trackedResult.res).flatten)
      = (p.Run).1 := by
    rw [Run_fst]
    exact merge_results p (effWorkers p n) hw1 hw2 arrival har
  rw [RunConc_eq_some p n arrival inter
    (safeRunnerQuantity_ne_zero n p.Tasks.length hL), hm]

/-! ### Schedules of worker traces -/

theorem isSchedule_flatten (ls : List (List ε)) : IsSchedule ls ls.flatten :=
  ⟨List.Perm.refl _, fun _ hl => List.sublist_flatten_of_mem hl⟩

theorem isSchedule_singleton (l t : List ε) (h : IsSchedule [l] t) : t = l := by
  obtain ⟨hp, hs⟩ := h
  have hl : l.Sublist t := hs l (by simp)
  have hlen : l.length = t.length := by
    have hx := hp.length_eq
    simp at hx
    omega
  exact (hl.eq_of_length hlen).symm

/-! ### Shard slices of the index sequence -/

theorem drop_range_eq (L s : Nat) (h : s ≤ L) :
    (List.range L).drop s = List.range' s (L - s) := by
  have hsplit : List.range' 0 s ++ List.range' s (L - s) = List.range L := by
    rw [List.range_eq_range']
    have hx := List.range'_append_1 0 s (L - s)
    rw [Nat.zero_add] at hx
    rw [show L - s + s = L from by omega] at hx
    exact hx
  rw [← hsplit]
  exact List.drop_left' (by simp)

theorem take_range'_eq (s m k : Nat) (h : k ≤ m) :
    (List.range' s m).take k = List.range' s k := by
  have hsplit : List.range' s k ++ List.range' (s + k) (m - k) = List.range' s m := by
    have hx := List.range'_append_1 s k (m - k)
    rw [show m - k + k = m from by omega] at hx
    exact hx
  rw [← hsplit]
  exact List.take_left' (by simp)

theorem shardSlice_range (L w span i : Nat) (hspan : span * w ≤ L) (hi : i < w) :
    shardSlice (List.range L) L w span i
      = List.range' (shardStart span i)
          (shardEnd L w span i - shardStart span i) := by
  have hstart : i * span ≤ L := by
    have h1 : i * span ≤ w * span := Nat.mul_le_mul_right span (Nat.le_of_lt hi)
    have h2 : w * span = span * w := Nat.mul_comm w span
    omega
  unfold shardSlice shardStart shardEnd
  rw [drop_range_eq L (i * span) hstart]
  by_cases hlast : i = w - 1
  · rw [if_pos hlast]
    exact take_range'_eq _ _ _ (Nat.le_refl _)
  · rw [if_neg hlast]
    have hend : (i + 1) * span ≤ L := by
      have h1 : (i + 1) * span ≤ w * span :=
        Nat.mul_le_mul_right span (by omega)
      have h2 : w * span = span * w := Nat.mul_comm w span
      omega
    have hx : i * span + span - i * span = span := by omega
    rw [hx]
    apply take_range'_eq
    have hy : (i + 1) * span = i * span + span := Nat.succ_mul i span
    omega

/-! ### Claim theorems -/

/-- C1 (code_bug): the spec mandates that each worker runs the core loop
over its shard with offset equal to the shard's start index, so hooks
receive global task indices.  The source instead passes the runner index
`i` to `p.run(part, i)`.  Concrete failing input: 4 tasks, `RunConc(2)`.
Worker 1's shard is `Tasks[2:4]` (start index 2), yet its pre-hook trace is
`[pre 1, pre 2]`; across the whole run the pre-hook fires twice with index
1 and never with index 3, while the claim requires exactly one firing for
each global index 0, 1, 2, 3. -/
theorem c1_offset_is_runner_index_not_shard_start :
    effWorkers fourWithPre 2 = 2
    ∧ effSpan fourWithPre 2 = 2
    ∧ shardStart 2 1 = 2
    ∧ workerTraces fourWithPre 2 2
        = [[Event.pre 0, Event.pre 1], [Event.pre 1, Event.pre 2]]
    ∧ fourWithPre.RunConc 2 (workerMessages fourWithPre 2 2)
        ((workerTraces fourWithPre 2 2).flatten)
      = some ([0, 1, 2, 3],
          [Event.pre 0, Event.pre 1, Event.pre 1, Event.pre 2]) :=
  ⟨rfl, rfl, rfl, rfl, rfl⟩

/-- C2 (code_bug): the claim (and spec) require that an empty task list is
handled without a division by zero for every worker count.  The source's
`safeRunnerQuantity(1, 0)` returns 0 (its own doc comment promises the
result never goes below 1), so `span := length / runners` divides by zero
and `RunConc` panics instead of returning an empty result sequence. -/
theorem c2_empty_tasklist_division_by_zero :
    safeRunnerQuantity 1 0 = 0 ∧ emptyProgram.RunConc 1 [] [] = none :=
  ⟨rfl, rfl⟩

/-- C4 (confirmed): with `span = L / w`, shard `i` covers
`[i*span, i*span + span)` for `i < w-1`, the last shard covers
`[(w-1)*span, L)`, consecutive shards are contiguous, the shard index
ranges concatenate to exactly `[0, L)` (hence non-overlapping exact cover),
and the last shard absorbs the remainder `L % w`. -/
theorem c4_partition (L w : Nat) (hw : 1 ≤ w) (hwl : w ≤ L) :
    (∀ i, shardStart (L / w) i = i * (L / w))
    ∧ (∀ i, i < w - 1 → shardEnd L w (L / w) i = i * (L / w) + L / w)
    ∧ shardEnd L w (L / w) (w - 1) = L
    ∧ (∀ i, i + 1 < w → shardEnd L w (L / w) i = shardStart (L / w) (i + 1))
    ∧ shardEnd L w (L / w) (w - 1) - shardStart (L / w) (w - 1)
        = L / w + L % w
    ∧ (((List.range w).map (fun i =>
          List.range' (shardStart (L / w) i)
            (shardEnd L w (L / w) i - shardStart (L / w) i))).flatten)
        = List.range L := by
  have hspan : (L / w) * w ≤ L := Nat.div_mul_le_self L w
  have hmod := Nat.div_add_mod L w
  have hq : L / w ≤ w * (L / w) := Nat.le_mul_of_pos_left (L / w) hw
  refine ⟨fun i => rfl, ?_, ?_, ?_, ?_, ?_⟩
  · intro i hi
    unfold shardEnd
    rw [if_neg (by omega)]
  · unfold shardEnd
    rw [if_pos rfl]
  · intro i hi
    unfold shardEnd shardStart
    rw [if_neg (by omega), Nat.succ_mul]
  · unfold shardEnd shardStart
    rw [if_pos rfl]
    have hsub : (w - 1) * (L / w) = w * (L / w) - (L / w) := by
      rw [Nat.sub_mul, Nat.one_mul]
    generalize hA : w * (L / w) = A at hmod hsub hq
    generalize hB : (w - 1) * (L / w) = B at hsub ⊢
    generalize hqq : L / w = q at hsub hq ⊢
    generalize hrr : L % w = r at hmod ⊢
    omega
  · have hmain := flatten_shardSlice (List.range L) w hw
      (by simpa using hwl)
    rw [List.length_range] at hmain
    rw [← hmain]
    congr 1
    apply List.map_congr_left
    intro i hi
    exact (shardSlice_range L w (L / w) i hspan (List.mem_range.mp hi)).symm

/-- Witness for C4 at the spec's example: 5 tasks, 3 workers give shards
`[0:1]`, `[1:2]`, `[2:5]`, whose index ranges concatenate to `[0, 5)`. -/
theorem c4_partition_witness :
    (shardEnd 5 3 (5 / 3) 0 = 1 ∧ shardEnd 5 3 (5 / 3) 1 = 2
      ∧ shardEnd 5 3 (5 / 3) 2 = 5)
    ∧ (((List.range 3).map (fun i =>
          List.range' (shardStart (5 / 3) i)
            (shardEnd 5 3 (5 / 3) i - shardStart (5 / 3) i))).flatten)
        = List.range 5 :=
  ⟨⟨by decide, by decide, by decide⟩,
    (c4_partition 5 3 (by decide) (by decide)).2.2.2.2.2⟩

/-- C3 counterexample: the claim quantifies over every task-sequence length
including 0, but with an empty task list `Run` returns an empty result
sequence while `RunConc(1)` divides by zero and returns no result sequence
at all, so the two cannot be equal element-for-element. -/
theorem c3_counterexample_empty :
    (emptyProgram.Run).1 = [] ∧ emptyProgram.RunConc 1 [] [] = none :=
  ⟨rfl, rfl⟩

/-- C3 amended (proved): for every NON-EMPTY task sequence of pure tasks,
every worker count n ≥ 1, and every order in which the tagged partial
results are received, `RunConc n` returns exactly the result sequence of
`Run`. -/
theorem c3_conc_seq_equivalence {α : Type} (p : Program α) (n : Int)
    (arrival : List (trackedResult α)) (inter : List (Event α))
    (hL : 1 ≤ p.Tasks.length) (_hn : 1 ≤ n)
    (har : ValidArrival p n arrival) :
    (p.RunConc n arrival inter).map Prod.fst = some (p.Run).1 := by
  rw [RunConc_merged p n arrival inter hL har]
  rfl

/-- Witness for the amended C3: the five example tasks with 3 workers and
the canonical reception order. -/
theorem c3_conc_seq_equivalence_witness :
    (exampleFive.RunConc 3
        (workerMessages exampleFive (effWorkers exampleFive 3) (effSpan exampleFive 3))
        ((workerTraces exampleFive (effWorkers exampleFive 3) (effSpan exampleFive 3)).flatten)).map
        Prod.fst
      = some (exampleFive.Run).1 :=
  c3_conc_seq_equivalence exampleFive 3 _ _ (by decide) (by decide)
    (List.Perm.refl _)

/-- C5 counterexample: the claim quantifies over every task count
including L = 0, where the normalization does NOT compute
clamp(n, 1, taskCount): for n = 1 and an empty task list the source
returns 0 effective workers while the clamp's lower bound is 1. -/
theorem c5_counterexample_zero_tasks :
    safeRunnerQuantity 1 (0 : Int) = 0 ∧ max 1 (min 1 (0 : Int)) = 1 :=
  ⟨rfl, rfl⟩

/-- C5 amended (proved): for every task count L >= 1 the normalization is
the clamp of n to [1, L]; n < 1 gives one worker, and n > L gives L workers
whose shards each contain exactly one task; one worker's single shard is
all of [0, L).  (At L = 0 the code returns 0 effective workers for n >= 1,
below clamp's lower bound — the division-by-zero bug recorded under
C2.) -/
theorem c5_worker_count_clamp (n : Int) (L : Nat) (hL : 1 ≤ L) :
    safeRunnerQuantity n (L : Int) = max 1 (min n (L : Int))
    ∧ (n < 1 → safeRunnerQuantity n (L : Int) = 1)
    ∧ ((L : Int) < n → safeRunnerQuantity n (L : Int) = (L : Int)
        ∧ ∀ i, i < L → shardEnd L L (L / L) i - shardStart (L / L) i = 1)
    ∧ (n < 1 → shardStart (L / 1) 0 = 0 ∧ shardEnd L 1 (L / 1) 0 = L) := by
  have hdiv : L / L = 1 := Nat.div_self (by omega)
  refine ⟨?_, ?_, ?_, ?_⟩
  · unfold safeRunnerQuantity
    split
    · omega
    · split <;> omega
  · intro hn
    unfold safeRunnerQuantity
    split
    · omega
    · simp [hn]
  · intro hn
    refine ⟨by unfold safeRunnerQuantity; rw [if_pos hn], ?_⟩
    intro i hi
    rw [hdiv]
    unfold shardEnd shardStart
    by_cases hlast : i = L - 1
    · rw [if_pos hlast]
      omega
    · rw [if_neg hlast]
      omega
  · intro _
    constructor
    · unfold shardStart
      exact Nat.zero_mul _
    · unfold shardEnd
      rw [if_pos rfl]

/-- Witness for C5 at L = 5 with n = 7 (more workers than tasks) and
n = -2 (non-positive). -/
theorem c5_worker_count_clamp_witness :
    safeRunnerQuantity 7 (5 : Int) = max 1 (min 7 (5 : Int))
    ∧ (safeRunnerQuantity 7 (5 : Int) = (5 : Int)
        ∧ ∀ i, i < 5 → shardEnd 5 5 (5 / 5) i - shardStart (5 / 5) i = 1)
    ∧ safeRunnerQuantity (-2) (5 : Int) = 1 :=
  ⟨(c5_worker_count_clamp 7 5 (by decide)).1,
    (c5_worker_count_clamp 7 5 (by decide)).2.2.1 (by decide),
    (c5_worker_count_clamp (-2) 5 (by decide)).2.1 (by decide)⟩

/-- C6 (confirmed): `Run` returns one result per task, the i-th element
being the i-th task's return value; the repository's five example tasks
yield exactly ["task0", …, "task4"]; and an empty task list yields an empty
result sequence with no pre-task hook, no post-task hook, and no pause. -/
theorem c6_run_results :
    (∀ {α : Type} (p : Program α), (p.Run).1 = p.Tasks.map (fun f => f ()))
    ∧ (exampleFive.Run).1 = ["task0", "task1", "task2", "task3", "task4"]
    ∧ (∀ {α : Type} (p : Program α), p.Tasks = [] →
        (p.Run).1 = []
        ∧ (p.Run).2.countP Event.isPre = 0
        ∧ (p.Run).2.countP Event.isPost = 0
        ∧ (p.Run).2.countP Event.isPause = 0) := by
  refine ⟨fun p => Run_fst p, rfl, fun p hp => ?_⟩
  refine ⟨by rw [Run_fst, hp]; rfl, ?_, ?_, ?_⟩ <;>
    · unfold Program.Run
      simp only [hp]
      simp [Program.run, runAux, List.countP_append, countP_ite_single,
        Event.isPre, Event.isPost, Event.isPause, Event.isStart,
        Event.isFinish]

/-- C8 (confirmed): with a positive interval (and pre/post hooks marking
task boundaries), the core loop's trace over any sub-sequence is exactly
the paced shape: pre/post around each task and one pause of the configured
duration strictly between each post-hook and the next task's pre-hook,
never after the last task; in particular exactly `max(L-1, 0)` pauses
occur. -/
theorem c8_pacing (p : Program α) (ts : List (Task α)) (offset : Nat)
    (hint : p.Interval > 0) (hpre : p.PreHook = true)
    (hpost : p.PostHook = true) :
    (p.run ts offset).2 = specPacedTrace p.Interval offset (ts.map fun f => f ())
    ∧ (p.run ts offset).2.countP Event.isPause = ts.length - 1 :=
  ⟨run_trace_paced p hpre hpost hint ts offset, by
    rw [run_countP_isPause, if_pos hint]⟩

/-- Witness for C8: three paced tasks with interval 5 give the explicit
paced trace and exactly two pauses. -/
theorem c8_pacing_witness :
    (threePaced.run threePaced.Tasks 0).2 = specPacedTrace 5 0 [7, 8, 9]
    ∧ (threePaced.run threePaced.Tasks 0).2.countP Event.isPause = 2 := by
  have h := c8_pacing threePaced threePaced.Tasks 0 (by decide) rfl rfl
  exact ⟨h.1, h.2⟩

/-- C9 (confirmed): neither `Run` nor `RunConc` writes any field of the
receiver — the post-state of either entry point is the unchanged program
(every field: tasks, interval, the four hooks, and the internal `isConc`
flag) — while the (never invoked) `concMode` mutator would have changed the
`isConc` flag. -/
theorem c9_config_read_only {α : Type} (p : Program α) (n : Int)
    (arrival : List (trackedResult α)) (inter : List (Event α)) :
    ((p.RunWithState).1.Tasks = p.Tasks
      ∧ (p.RunWithState).1.Interval = p.Interval
      ∧ (p.RunWithState).1.PreHook = p.PreHook
      ∧ (p.RunWithState).1.PostHook = p.PostHook
      ∧ (p.RunWithState).1.OnStart = p.OnStart
      ∧ (p.RunWithState).1.OnFinish = p.OnFinish
      ∧ (p.RunWithState).1.isConc = p.isConc)
    ∧ (p.RunConcWithState n arrival inter).1 = p
    ∧ (p.concMode true).isConc = true
    ∧ (p.concMode false).isConc = false :=
  ⟨⟨rfl, rfl, rfl, rfl, rfl, rfl, rfl⟩, rfl,
    by simp [Program.concMode], by simp [Program.concMode]⟩

/-- C10 (confirmed): for a non-empty task list, `RunConc 1` creates a
single shard that is the entire task sequence and runs the core loop with
offset 0 (runner index 0), so both the result sequence and the complete
hook-event trace are identical to those of the sequential `Run`. -/
theorem c10_single_worker_equiv {α : Type} (p : Program α)
    (arrival : List (trackedResult α)) (inter : List (Event α))
    (hL : 1 ≤ p.Tasks.length) (har : ValidArrival p 1 arrival)
    (hsc : IsSchedule (workerTraces p (effWorkers p 1) (effSpan p 1)) inter) :
    shardSlice p.Tasks p.Tasks.length (effWorkers p 1) (effSpan p 1) 0 = p.Tasks
    ∧ workerMessages p (effWorkers p 1) (effSpan p 1)
        = [⟨0, (p.run p.Tasks 0).1⟩]
    ∧ p.RunConc 1 arrival inter = some (p.Run) := by
  have hw : effWorkers p 1 = 1 := by
    unfold effWorkers safeRunnerQuantity
    rw [if_neg (by omega), if_neg (by omega)]
    rfl
  have hspan : effSpan p 1 = p.Tasks.length := by
    unfold effSpan
    rw [hw, Nat.div_one]
  have hslice : shardSlice p.Tasks p.Tasks.length 1 p.Tasks.length 0 = p.Tasks := by
    unfold shardSlice shardStart shardEnd
    simp
  have htraces : workerTraces p 1 p.Tasks.length = [(p.run p.Tasks 0).2] := by
    unfold workerTraces workerTrace
    rw [show List.range 1 = [0] from rfl]
    simp [hslice]
  have htrace : inter = (p.run p.Tasks 0).2 := by
    rw [hw, hspan, htraces] at hsc
    exact isSchedule_singleton _ _ hsc
  refine ⟨by rw [hw, hspan]; exact hslice, ?_, ?_⟩
  · rw [hw, hspan]
    unfold workerMessages workerMessage
    rw [show List.range 1 = [0] from rfl]
    simp [hslice]
  · rw [RunConc_merged p 1 arrival inter hL har, htrace]
    rfl

/-- Witness for C10: the three paced tasks run with a single worker and the
canonical schedule. -/
theorem c10_single_worker_equiv_witness :
    shardSlice threePaced.Tasks threePaced.Tasks.length
        (effWorkers threePaced 1) (effSpan threePaced 1) 0 = threePaced.Tasks
    ∧ workerMessages threePaced (effWorkers threePaced 1) (effSpan threePaced 1)
        = [⟨0, (threePaced.run threePaced.Tasks 0).1⟩]
    ∧ threePaced.RunConc 1
        (workerMessages threePaced (effWorkers threePaced 1) (effSpan threePaced 1))
        ((workerTraces threePaced (effWorkers threePaced 1) (effSpan threePaced 1)).flatten)
      = some threePaced.Run :=
  c10_single_worker_equiv threePaced _ _ (by decide) (List.Perm.refl _)
    (isSchedule_flatten _)

/-- C7 counterexample: the claim covers "a run over L tasks (in either
mode)" including L = 0 concurrently, but with an empty task list and all
four hooks configured, `RunConc 1` divides by zero and aborts: there is no
returned result sequence for the on-finish hook to receive. -/
theorem c7_counterexample_empty_conc :
    emptyAllHooks.OnStart = true ∧ emptyAllHooks.OnFinish = true
    ∧ emptyAllHooks.RunConc 1 [] [] = none :=
  ⟨rfl, rfl, rfl⟩

/-- C7 amended (proved): with all four hooks configured, in sequential mode
(any L) and in concurrent mode for L ≥ 1 (the L = 0 concurrent run aborts,
see the worker-count bug), the trace starts with exactly one on-start
event, ends with exactly one on-finish event carrying the result sequence
about to be returned, and in between — where no start/finish event occurs —
the pre-task and post-task hooks each fire exactly L times (summed over all
shards in concurrent mode). -/
theorem c7_hook_completeness {α : Type} (p : Program α)
    (hs : p.OnStart = true) (hf : p.OnFinish = true)
    (hpre : p.PreHook = true) (hpost : p.PostHook = true) :
    ((p.Run).2 = Event.start :: ((p.run p.Tasks 0).2 ++ [Event.finish (p.Run).1])
      ∧ (p.run p.Tasks 0).2.countP Event.isStart = 0
      ∧ (p.run p.Tasks 0).2.countP Event.isFinish = 0
      ∧ (p.run p.Tasks 0).2.countP Event.isPre = p.Tasks.length
      ∧ (p.run p.Tasks 0).2.countP Event.isPost = p.Tasks.length)
    ∧ (∀ (n : Int) (arrival : List (trackedResult α)) (inter : List (Event α)),
        1 ≤ p.Tasks.length → ValidArrival p n arrival →
        IsSchedule (workerTraces p (effWorkers p n) (effSpan p n)) inter →
        p.RunConc n arrival inter
          = some ((p.Run).1, Event.start :: (inter ++ [Event.finish (p.Run).1]))
        ∧ inter.countP Event.isStart = 0
        ∧ inter.countP Event.isFinish = 0
        ∧ inter.countP Event.isPre = p.Tasks.length
        ∧ inter.countP Event.isPost = p.Tasks.length) := by
  constructor
  · refine ⟨?_, run_countP_isStart p p.Tasks 0, run_countP_isFinish p p.Tasks 0,
      ?_, ?_⟩
    · unfold Program.Run
      simp [hs, hf]
    · rw [run_countP_isPre, if_pos hpre]
    · rw [run_countP_isPost, if_pos hpost]
  · intro n arrival inter hL har hsc
    obtain ⟨hw1, hw2⟩ := effWorkers_bounds p n hL
    have hperm : inter.Perm
        ((workerTraces p (effWorkers p n) (effSpan p n)).flatten) := hsc.1
    have hzs : inter.countP Event.isStart = 0 := by
      rw [hperm.countP_eq]
      exact flatten_workerTraces_countP_zero p _ _ _
        (fun ts offset => run_countP_isStart p ts offset)
    have hzf : inter.countP Event.isFinish = 0 := by
      rw [hperm.countP_eq]
      exact flatten_workerTraces_countP_zero p _ _ _
        (fun ts offset => run_countP_isFinish p ts offset)
    have hcp : inter.countP Event.isPre = p.Tasks.length := by
      rw [hperm.countP_eq]
      unfold effSpan
      exact flatten_workerTraces_countP_len p (effWorkers p n) hw1 hw2 _
        (fun ts offset => by rw [run_countP_isPre, if_pos hpre])
    have hcq : inter.countP Event.isPost = p.Tasks.length := by
      rw [hperm.countP_eq]
      unfold effSpan
      exact flatten_workerTraces_countP_len p (effWorkers p n) hw1 hw2 _
        (fun ts offset => by rw [run_countP_isPost, if_pos hpost])
    refine ⟨?_, hzs, hzf, hcp, hcq⟩
    rw [RunConc_merged p n arrival inter hL har]
    simp [hs, hf]

/-- Witness for the amended C7: two tasks with all hooks, two workers, the
canonical reception order and schedule. -/
theorem c7_hook_completeness_witness :
    twoAllHooks.RunConc 2
        (workerMessages twoAllHooks (effWorkers twoAllHooks 2)
          (effSpan twoAllHooks 2))
        ((workerTraces twoAllHooks (effWorkers twoAllHooks 2)
          (effSpan twoAllHooks 2)).flatten)
      = some ((twoAllHooks.Run).1,
          Event.start ::
            (((workerTraces twoAllHooks (effWorkers twoAllHooks 2)
                (effSpan twoAllHooks 2)).flatten)
              ++ [Event.finish (twoAllHooks.Run).1]))
    ∧ ((workerTraces twoAllHooks (effWorkers twoAllHooks 2)
          (effSpan twoAllHooks 2)).flatten).countP Event.isPre = 2
    ∧ ((workerTraces twoAllHooks (effWorkers twoAllHooks 2)
          (effSpan twoAllHooks 2)).flatten).countP Event.isPost = 2 := by
  have h := (c7_hook_completeness twoAllHooks rfl rfl rfl rfl).2 2
    (workerMessages twoAllHooks (effWorkers twoAllHooks 2) (effSpan twoAllHooks 2))
    ((workerTraces twoAllHooks (effWorkers twoAllHooks 2)
      (effSpan twoAllHooks 2)).flatten)
    (by decide) (List.Perm.refl _) (isSchedule_flatten _)
  exact ⟨h.1, h.2.2.2.1, h.2.2.2.2⟩

end TaskRunner
